import Mathlib

/-!
Verification of the two test-case-title builder tools
(`fsw_file_namer_H.py`, variant A, row-major; `fsw_file_namer_V.py`,
variant B, column-major with subsection folders).

Strings at the file level are modelled as `List Char`; cells and tokens at
the session level are Lean `String`s.  Fallible code paths (uncaught Python
`IndexError` / `ValueError`) are modelled with `Option`.
-/

namespace FswNamer

/-- The delimiter characters stripped by Python's `strip(',\n')`. -/
def dcs : List Char := [',', '\n']

/-- Python `s.strip(',\n')`: removes the characters of `dcs` from BOTH ends
of the line (leading and trailing). -/
def stripChars (cs : List Char) : List Char :=
  ((cs.dropWhile (fun c => c ∈ dcs)).reverse.dropWhile (fun c => c ∈ dcs)).reverse

/-- Python `s.split(',')`: splits on every comma, keeping empty chunks;
never returns an empty list. -/
def splitComma : List Char → List (List Char)
  | [] => [[]]
  | c :: cs =>
    if c = ',' then [] :: splitComma cs
    else
      match splitComma cs with
      | [] => [[c]]
      | p :: ps => (c :: p) :: ps

/-- Helper for `readlines`: accumulates the current (reversed) partial line. -/
def readlinesAux : List Char → List Char → List (List Char)
  | [], acc => if acc.isEmpty then [] else [acc.reverse]
  | c :: cs, acc =>
    if c = '\n' then (acc.reverse ++ ['\n']) :: readlinesAux cs []
    else readlinesAux cs (c :: acc)

/-- Python `file.readlines()` applied to the file's character content:
splits after every newline, keeping the newline on each line. -/
def readlines (cs : List Char) : List (List Char) :=
  readlinesAux cs []

/-- Python `file.writelines(lines)`: concatenates the lines verbatim. -/
def writelines (lns : List (List Char)) : List Char :=
  lns.flatten

/-- Variant A `save_word`:
`lines[i] = lines[i].strip(',\n') + ',' + word + '\n'`, then the whole
file is rewritten (modelled by returning the new line list). -/
def save_word (lns : List (List Char)) (i : Nat) (w : List Char) :
    List (List Char) :=
  lns.set i (stripChars (lns.getD i []) ++ ',' :: (w ++ ['\n']))

/-- Variant A line parsing, as in `update_buttons`:
`line.strip(',\n').split(',')`, each cell read back as a `String`. -/
def parseLineA (line : List Char) : List String :=
  (splitComma (stripChars line)).map (fun c => String.mk c)

/-- The title accumulator shared by both variants (`on_enter`):
append `sep ++ t` unless the committed token `t` is empty, in which case
the accumulated string is unchanged. -/
def accept (sep acc t : String) : String :=
  if t = "" then acc else acc ++ sep ++ t

/-- `joinTok sep ts` is `sep ++ t₁ ++ sep ++ t₂ ++ ...`: the contribution
of an accepted-token list to the title after the seed. -/
def joinTok (sep : String) (ts : List String) : String :=
  (ts.map (fun t => sep ++ t)).foldr (fun a b => a ++ b) ""

/-- Variant B `read_and_transpose_file`'s core, `list(map(list, zip(*data)))`:
Python `zip` truncates to the SHORTEST row, so every transposed row (original
column) has exactly `minRowLen data` entries and columns beyond the shortest
row are dropped. -/
def minRowLen (rows : List (List String)) : Nat :=
  match rows with
  | [] => 0
  | r :: rs => rs.foldl (fun m x => min m x.length) r.length

/-- The transposed table produced by variant B's loader (`og_data` stays as
`rows`; the returned value is `transposed_data`). -/
def zipTranspose (rows : List (List String)) : List (List String) :=
  match rows with
  | [] => []
  | _ => (List.range (minRowLen rows)).map (fun i => rows.map (fun r => r.getD i ""))

/-- The skip loop of variant B `update_buttons`: starting at transposed row
`i`, skip rows whose first cell is empty; return the first labeled row as
`(index, label, remaining words)`.  `none` models the `IndexError` (row list
exhausted, or an empty row) that makes the program quit. -/
def findSectionFrom : List (List String) → Nat → Option (Nat × String × List String)
  | [], _ => none
  | [] :: _, _ => none
  | (l :: rest) :: tds, i =>
    if l = "" then findSectionFrom tds (i + 1) else some (i, l, rest)

/-- The skip loop of variant B `update_buttons`, entered at transposed row
index `i` of the full table `td`. -/
def findSection (td : List (List String)) (i : Nat) :
    Option (Nat × String × List String) :=
  findSectionFrom (td.drop i) i

/-- The subsection-collecting loop of variant B `insert_word`:
`for val in og[wi][j:]: if og[0][j] == '': (if val != '': append val); j += 1`.
The slice is iterated to its end, but the cursor `j` and the collection only
move while the header cell `og[0][j]` is empty; `none` models the uncaught
`IndexError` when `og[0][j]` is read out of range. -/
def collectSub (og : List (List String)) : List String → Nat → Option (List String × Nat)
  | [], j => some ([], j)
  | v :: vs, j =>
    match (og.headD []).get? j with
    | none => none
    | some h =>
      if h = "" then
        match collectSub og vs (j + 1) with
        | none => none
        | some (acc, j2) => some ((if v = "" then acc else v :: acc), j2)
      else collectSub og vs j

/-- Session state of variant B.  `cri` is `current_row_index`, `title` is
`entered_text`, `label` is `colstr1`, `buttonWords` the list handed to
`create_word_buttons` (only its nonempty entries become buttons).
`srcRow`, `presented`, `accepted` and `skips` are observers used by the
theorems: `srcRow` records which transposed row the current buttons came
from (`none` for an ephemeral subsection), `presented` counts the top-level
sections displayed so far, `accepted` the committed nonempty tokens in
order, `skips` the empty commits. -/
structure VState where
  cri : Nat
  title : String
  label : String
  buttonWords : List String
  srcRow : Option Nat
  alt : Bool
  done : Bool
  presented : Nat
  accepted : List String
  skips : Nat
deriving DecidableEq

/-- The variant B separator (`connector = ' - '`). -/
def connector : String := " - "

/-- Variant B `update_buttons`. -/
def update_buttonsV (td : List (List String)) (s : VState) : VState :=
  match findSection td s.cri with
  | none => { s with done := true }
  | some (k, l, rest) =>
    { s with cri := k + 1, label := l, buttonWords := rest,
             srcRow := some k, presented := s.presented + 1 }

/-- Variant B `on_enter` with textbox content `t`. -/
def on_enterV (td : List (List String)) (s : VState) (t : String) : VState :=
  update_buttonsV td
    { s with title := accept connector s.title t,
             accepted := if t = "" then s.accepted else s.accepted ++ [t],
             skips := if t = "" then s.skips + 1 else s.skips }

/-- Variant B `handle_subsection`: relabel to `"<word> values"` and show the
subsection values, without advancing past a new top-level section. -/
def handle_subsection (s : VState) (w : String) (vals : List String) : VState :=
  { s with label := w ++ " values", buttonWords := vals, srcRow := none }

/-- The tail of variant B `insert_word` once no subsection is presented:
the word goes to the textbox, and in Alt-Button mode it is committed at once. -/
def commitOrFill (td : List (List String)) (s : VState) (w : String) : VState :=
  if s.alt then on_enterV td s w else s

/-- Variant B `insert_word` (a button click on word `w`).  The Python
`transposed_data[current_row_index - 1]` uses `cri - 1`; every reachable
click state has `cri ≥ 1`, so Nat subtraction is faithful there.  `none`
models the uncaught `ValueError`/`IndexError` paths. -/
def insert_word (og td : List (List String)) (s : VState) (w : String) :
    Option VState :=
  if s.cri < td.length then
    match td.getD s.cri [] with
    | [] => none
    | l0 :: _ =>
      if l0 = "" then
        if w ∈ td.getD (s.cri - 1) [] then
          if (td.getD (s.cri - 1) []).indexOf w < og.length then
            match collectSub og
                ((og.getD ((td.getD (s.cri - 1) []).indexOf w) []).drop s.cri)
                s.cri with
            | none => none
            | some (vals, j2) =>
              if vals.isEmpty then some (commitOrFill td { s with cri := j2 } w)
              else some (handle_subsection { s with cri := j2 } w vals)
          else none
        else none
      else some (commitOrFill td s w)
  else some (commitOrFill td s w)

/-- Variant B initial state (`run_file_reader`): the first transposed row is
displayed WITHOUT the empty-label skip of `update_buttons`, and
`current_row_index` is incremented to 1 afterwards in every case. -/
def vinit (td : List (List String)) (seed : String) : VState :=
  match td with
  | (l :: rest) :: _ =>
    { cri := 1, title := seed, label := l, buttonWords := rest,
      srcRow := some 0, alt := true, done := false,
      presented := 1, accepted := [], skips := 0 }
  | _ =>
    { cri := 1, title := seed, label := "No more lines to read.",
      buttonWords := [], srcRow := none, alt := true, done := false,
      presented := 0, accepted := [], skips := 0 }

/-- User events for variant B: clicking a displayed button, pressing Enter
with the textbox holding `t`, and toggling Alt-Button mode. -/
inductive VEvent where
  | click (w : String)
  | enter (t : String)
  | toggleAlt
deriving DecidableEq

/-- One UI event of variant B.  Clicks only fire on actually displayed
buttons (nonempty words of the current row); after `root.quit` no further
event has an effect. -/
def vstep (og td : List (List String)) (s : VState) : VEvent → Option VState
  | .click w =>
    if s.done then some s
    else if w ∈ s.buttonWords ∧ w ≠ "" then insert_word og td s w else some s
  | .enter t => if s.done then some s else some (on_enterV td s t)
  | .toggleAlt => if s.done then some s else some { s with alt := !s.alt }

/-- A whole variant B session: run the events in order, stopping with
`none` if an uncaught exception is reached. -/
def vrun (og td : List (List String)) (s : VState) : List VEvent → Option VState
  | [] => some s
  | e :: es =>
    match vstep og td s e with
    | none => none
    | some s2 => vrun og td s2 es

/-- Session state of variant A.  `lins` is the (mutable) `lines` list,
`it` the position of the `current_line` iterator, `cri` is
`current_row_index` (the index of the row currently displayed), `save` is
`saveFlag`, `title` is `entered_text`.  `presented`, `accepted`, `skips`
are the same observers as in `VState`. -/
structure HState where
  lins : List (List Char)
  it : Nat
  cri : Nat
  save : Bool
  alt : Bool
  title : String
  label : String
  buttonWords : List String
  done : Bool
  presented : Nat
  accepted : List String
  skips : Nat
deriving DecidableEq

/-- Variant A `update_buttons`: `next(current_line)` then strip/split; the
first word is the label, the rest become buttons; `StopIteration` quits.
`parseLineA` never returns `[]`, so the `headD`/`tail` split is exact. -/
def update_buttonsH (s : HState) : HState :=
  match s.lins.get? s.it with
  | none => { s with done := true }
  | some line =>
    { s with it := s.it + 1, cri := s.cri + 1,
             label := (parseLineA line).headD "",
             buttonWords := (parseLineA line).tail,
             presented := s.presented + 1 }

/-- Variant A `on_enter` with textbox content `t`: save if the flag is set,
clear the flag, accumulate the token, advance.  Python would raise on
`lines[cri]` when `cri` is out of range (empty file with the flag set);
`save_word` then leaves `lins` unchanged, and the theorems about saving all
work with the row in range. -/
def on_enterH (s : HState) (t : String) : HState :=
  update_buttonsH
    { s with lins := if s.save then save_word s.lins s.cri t.toList else s.lins,
             save := false,
             title := accept "_" s.title t,
             accepted := if t = "" then s.accepted else s.accepted ++ [t],
             skips := if t = "" then s.skips + 1 else s.skips }

/-- Variant A initial state (`run_file_reader`): the first line is shown,
the iterator moves to 1, `current_row_index` stays 0. -/
def hinit (lns : List (List Char)) (seed : String) : HState :=
  match lns with
  | line :: _ =>
    { lins := lns, it := 1, cri := 0, save := false, alt := true,
      title := seed, label := (parseLineA line).headD "",
      buttonWords := (parseLineA line).tail, done := false,
      presented := 1, accepted := [], skips := 0 }
  | [] =>
    { lins := lns, it := 0, cri := 0, save := false, alt := true,
      title := seed, label := "No more lines to read.",
      buttonWords := [], done := false,
      presented := 0, accepted := [], skips := 0 }

/-- User events for variant A: clicking a displayed button (variant A does
not filter empty words), pressing Enter with textbox `t`, toggling the
Save-Word checkbox, toggling Alt-Button mode. -/
inductive HEvent where
  | click (w : String)
  | enter (t : String)
  | setSave (b : Bool)
  | toggleAlt
deriving DecidableEq

/-- One UI event of variant A.  A click puts the word in the textbox and,
in Alt-Button mode, commits it at once; otherwise its only effect is on the
textbox, which the next `enter` event carries explicitly. -/
def hstep (s : HState) : HEvent → HState
  | .click w =>
    if s.done then s
    else if w ∈ s.buttonWords then (if s.alt then on_enterH s w else s) else s
  | .enter t => if s.done then s else on_enterH s t
  | .setSave b => if s.done then s else { s with save := b }
  | .toggleAlt => if s.done then s else { s with alt := !s.alt }

/-- A whole variant A session. -/
def hrun (s : HState) (evs : List HEvent) : HState :=
  evs.foldl hstep s

/-- The invariant of claim C7: whenever the displayed buttons come from a
transposed row (a top-level section rather than an ephemeral subsection),
that row is labeled. -/
def InvSrc (td : List (List String)) (s : VState) : Prop :=
  ∀ k, s.srcRow = some k → ∃ l rest, td.get? k = some (l :: rest) ∧ ¬ l = ""

/-- The bookkeeping invariant of claim C3 for variant B: the tokens in the
title are exactly the accepted ones, and accepted commits plus skipped
commits account for every presented section except the one currently
displayed (none once the session is done). -/
def VInv (seed : String) (s : VState) : Prop :=
  s.title = seed ++ joinTok connector s.accepted ∧
  s.accepted.length + s.skips + (cond s.done 0 1) = s.presented

/-- The bookkeeping invariant of claim C3 for variant A. -/
def HInv (seed : String) (s : HState) : Prop :=
  s.title = seed ++ joinTok "_" s.accepted ∧
  s.accepted.length + s.skips + (cond s.done 0 1) = s.presented

/-- Length of the run of empty labels at the head of a header-cell list;
`emptyRun (hs.drop j)` is how far the subsection scan can advance from
column `j`. -/
def emptyRun : List String → Nat
  | [] => 0
  | h :: t => if h = "" then emptyRun t + 1 else 0

/-- All sections the variant B walker presents, in order: one per labeled
transposed row, with the empty option cells filtered out (as
`create_word_buttons` does); an empty transposed row stops the walk the way
the `IndexError` handler quits the program. -/
def sectionsOf : List (List String) → List (String × List String)
  | [] => []
  | [] :: _ => []
  | (l :: rest) :: tds =>
    if l = "" then sectionsOf tds
    else (l, rest.filter (fun c => c ≠ "")) :: sectionsOf tds

/-- The longest row length of a table. -/
def maxRowLen (rows : List (List String)) : Nat :=
  rows.foldr (fun r m => max r.length m) 0

/-- The transposed view claim C8 expects of a ragged table: every column up
to the longest row becomes a traversal row and a missing cell reads as the
empty string (an absent option).  It is compared with `zipTranspose`, the
truncating transpose the code actually computes. -/
def padTranspose (rows : List (List String)) : List (List String) :=
  (List.range (maxRowLen rows)).map (fun i => rows.map (fun r => r.getD i ""))

/-- Stripping only TRAILING `','`/`'\n'` characters. -/
def stripTrailingOnly (cs : List Char) : List Char :=
  (cs.reverse.dropWhile (fun c => c ∈ dcs)).reverse

/-- The variant A line parse that claim C6 describes ("the only
transformation is stripping a trailing delimiter/newline"); compared with
`parseLineA`, the parse the code performs. -/
def specParseA (line : List Char) : List String :=
  (splitComma (stripTrailingOnly line)).map (fun c => String.mk c)

/-- The cell list of a stored row as claim C2 reads it: the line without
its trailing newline, split on commas, nothing else removed. -/
def rawCells (line : List Char) : List (List Char) :=
  splitComma ((line.reverse.dropWhile (fun c => c = '\n')).reverse)

/-- The variant B scenario table of the spec (`Tests`/`Freq` with anonymous
sub-columns `[2412, 2437]` under `2.4` and `[5180]` under `5.1`). -/
def ogScen : List (List String) :=
  [["Tests", "Freq", "", ""],
   ["PSD", "2.4", "2412", "2437"],
   ["PWR", "5.1", "5180", ""],
   ["OBW", "5.7", "", ""]]

/-- The transposed scenario table, as the variant B loader produces it. -/
def tdScen : List (List String) := zipTranspose ogScen

-- quick sanity checks of the char-level model against Python behaviour
example : stripChars (",a,b,\n".toList) = "a,b".toList := by decide
example : splitComma ("a,,b".toList) = ["a".toList, [], "b".toList] := by decide
example : splitComma [] = [[]] := by decide
example : readlines ("x,y\nz\n".toList) = ["x,y\n".toList, "z\n".toList] := by decide
example : readlines ("x\nab".toList) = ["x\n".toList, "ab".toList] := by decide
example : save_word ["a,b\n".toList] 0 ("w".toList) = ["a,b,w\n".toList] := by decide
example : parseLineA ("Freq,2.4,5.1\n".toList) = ["Freq", "2.4", "5.1"] := by decide
example : accept "_" "s" "" = "s" := by rfl
example : accept "_" "s" "t" = "s_t" := by rfl

-- sanity checks of the variant B machine on the spec's scenario table
example : tdScen =
    [["Tests", "PSD", "PWR", "OBW"],
     ["Freq", "2.4", "5.1", "5.7"],
     ["", "2412", "5180", ""],
     ["", "2437", "", ""]] := by decide

example :
    (vrun ogScen tdScen (vinit tdScen "S") [.enter "", .click "2.4"]).map
      (fun s => (s.label, s.buttonWords, s.cri, s.title)) =
    some ("2.4 values", ["2412", "2437"], 4, "S") := by decide

example :
    (vrun ogScen tdScen (vinit tdScen "S")
      [.enter "", .click "2.4", .click "2437"]).map
      (fun s => (s.title, s.done)) = some ("S - 2437", true) := by decide

example :
    (vrun ogScen tdScen (vinit tdScen "S") [.enter "", .click "5.7"]).map
      (fun s => (s.title, s.done)) = some ("S - 5.7", true) := by decide

example :
    (vrun ogScen tdScen (vinit tdScen "S") [.enter "", .click "5.1"]).map
      (fun s => (s.label, s.buttonWords)) =
    some ("5.1 values", ["5180"]) := by decide

-- sanity checks of the variant A machine (spec §8 scenario 6)
example :
    (hrun (hinit ["Freq,2.4,5.1\n".toList, "Mod,OFDM,QAM\n".toList] "S")
      [.click "2.4", .click "OFDM"]).title = "S_2.4_OFDM" := by decide

example :
    (hrun (hinit ["Freq,2.4,5.1\n".toList, "Mod,OFDM,QAM\n".toList] "S")
      [.setSave true, .enter "typed", .enter "QAM"]).lins =
    ["Freq,2.4,5.1,typed\n".toList, "Mod,OFDM,QAM\n".toList] := by decide

/-! Field-preservation facts for the two `update_buttons` walkers. -/

lemma update_buttonsH_keeps (s : HState) :
    (update_buttonsH s).title = s.title ∧ (update_buttonsH s).save = s.save ∧
    (update_buttonsH s).lins = s.lins ∧
    (update_buttonsH s).accepted = s.accepted ∧
    (update_buttonsH s).skips = s.skips := by
  unfold update_buttonsH
  cases s.lins.get? s.it <;> exact ⟨rfl, rfl, rfl, rfl, rfl⟩

lemma update_buttonsV_keeps (td : List (List String)) (s : VState) :
    (update_buttonsV td s).title = s.title ∧
    (update_buttonsV td s).accepted = s.accepted ∧
    (update_buttonsV td s).skips = s.skips := by
  unfold update_buttonsV
  cases findSection td s.cri with
  | none => exact ⟨rfl, rfl, rfl⟩
  | some x => exact ⟨rfl, rfl, rfl⟩

lemma on_enterH_title (s : HState) (t : String) :
    (on_enterH s t).title = accept "_" s.title t := by
  unfold on_enterH
  exact (update_buttonsH_keeps _).1

lemma on_enterV_title (td : List (List String)) (s : VState) (t : String) :
    (on_enterV td s t).title = accept connector s.title t := by
  unfold on_enterV
  exact (update_buttonsV_keeps td _).1

/-! The accumulator: fold characterization and prefix preservation. -/

lemma length_pos_of_ne_empty (t : String) (h : t ≠ "") : 0 < t.length := by
  cases t with
  | mk d =>
    cases d with
    | nil => simp at h
    | cons c cs => simp [String.length]

lemma append_ne_self_of_ne_empty (acc u : String) (h : u ≠ "") :
    acc ++ u ≠ acc := by
  intro heq
  have hl := congrArg String.length heq
  rw [String.length_append] at hl
  have := length_pos_of_ne_empty u h
  omega

lemma foldl_accept (sep seed : String) (ts : List String) :
    List.foldl (accept sep) seed ts
      = seed ++ joinTok sep (ts.filter (fun t => t ≠ "")) := by
  induction ts generalizing seed with
  | nil => simp [joinTok, String.append_empty]
  | cons t ts ih =>
    by_cases ht : t = ""
    · subst ht
      simp only [List.foldl_cons, List.filter_cons]
      have : accept sep seed "" = seed := by rfl
      rw [this]
      simpa using ih seed
    · simp only [List.foldl_cons, List.filter_cons, accept, if_neg ht]
      rw [ih (seed ++ sep ++ t)]
      have : (fun x => decide (x ≠ "")) t = true := by
        simp [ht]
      simp only [this, if_pos]
      show seed ++ sep ++ t ++ joinTok sep _ = seed ++ ((sep ++ t) ++ joinTok sep _)
      simp [String.append_assoc]

/-- C4: in both variants, committing an empty token leaves the accumulated
title exactly unchanged for that turn, while committing a nonempty token
appends separator + token, for every state. -/
theorem c4_empty_token_skip :
    ∀ (sA : HState) (td : List (List String)) (sB : VState) (t : String),
      (on_enterH sA t).title
        = (if t = "" then sA.title else sA.title ++ "_" ++ t) ∧
      (on_enterV td sB t).title
        = (if t = "" then sB.title else sB.title ++ connector ++ t) := by
  intro sA td sB t
  rw [on_enterH_title, on_enterV_title]
  constructor <;> rfl

/-- C5: the final title is the seed followed by each accepted nonempty
token joined by the separator in order; `accept` extends the previous title
(strictly, for a nonempty token) and so never reorders, modifies or drops
an accumulated token; both variants' `on_enter` accumulate with `accept`. -/
theorem c5_accumulation_order :
    (∀ (sep seed : String) (ts : List String),
        List.foldl (accept sep) seed ts
          = seed ++ joinTok sep (ts.filter (fun t => t ≠ ""))) ∧
    (∀ (sep acc t : String), ∃ u, acc ++ u = accept sep acc t) ∧
    (∀ (sep acc t : String), t ≠ "" →
        ∃ u, u ≠ "" ∧ acc ++ u = accept sep acc t) ∧
    (∀ (s : HState) (t : String), (on_enterH s t).title = accept "_" s.title t) ∧
    (∀ (td : List (List String)) (s : VState) (t : String),
        (on_enterV td s t).title = accept connector s.title t) := by
  refine ⟨foldl_accept, ?_, ?_, on_enterH_title, on_enterV_title⟩
  · intro sep acc t
    by_cases ht : t = ""
    · exact ⟨"", by simp [accept, ht, String.append_empty]⟩
    · exact ⟨sep ++ t, by simp [accept, ht, String.append_assoc]⟩
  · intro sep acc t ht
    refine ⟨sep ++ t, ?_, by simp [accept, ht, String.append_assoc]⟩
    intro h
    have hl := congrArg String.length h
    have := length_pos_of_ne_empty t ht
    rw [String.length_append] at hl
    have h0 : ("" : String).length = 0 := rfl
    rw [h0] at hl
    omega

/-- Witness for C5 at a concrete nonempty token. -/
theorem c5_witness :
    ("x" : String) ≠ "" ∧ ∃ u, u ≠ "" ∧ "S" ++ u = accept "_" "S" "x" :=
  ⟨by decide, c5_accumulation_order.2.2.1 "_" "S" "x" (by decide)⟩

/-- C9: variant A clears the save flag on every commit, the file rows are
rewritten on a commit exactly when the flag was set at that commit, and a
second consecutive commit therefore never writes again unless the flag was
set in between. -/
theorem c9_save_flag_cleared :
    ∀ (s : HState) (t t2 : String),
      (on_enterH s t).save = false ∧
      (on_enterH s t).lins
        = (if s.save then save_word s.lins s.cri t.toList else s.lins) ∧
      (on_enterH (on_enterH s t) t2).lins = (on_enterH s t).lins := by
  intro s t t2
  have h1 : (on_enterH s t).save = false := by
    unfold on_enterH
    exact (update_buttonsH_keeps _).2.1
  have h2 : ∀ (s2 : HState) (u : String),
      (on_enterH s2 u).lins
        = (if s2.save then save_word s2.lins s2.cri u.toList else s2.lins) := by
    intro s2 u
    unfold on_enterH
    exact (update_buttonsH_keeps _).2.2.1
  refine ⟨h1, h2 s t, ?_⟩
  rw [h2 (on_enterH s t) t2, h1]
  simp

/-! Stripping lemmas for variant A's `strip(',\n')`. -/

lemma dropWhile_eq_self_of_head (p : Char → Bool) (l : List Char)
    (h : ∀ c, l.head? = some c → p c = false) : l.dropWhile p = l := by
  cases l with
  | nil => rfl
  | cons a as => simp [List.dropWhile_cons, h a rfl]

lemma stripChars_content (m : List Char)
    (hh : ∀ c, m.head? = some c → ¬ c ∈ dcs)
    (hl : ∀ c, m.getLast? = some c → ¬ c ∈ dcs) :
    stripChars (m ++ ['\n']) = m := by
  cases m with
  | nil => decide
  | cons a as =>
    have ha : ¬ a ∈ dcs := hh a rfl
    have h1 : List.dropWhile (fun c => decide (c ∈ dcs)) ((a :: as) ++ ['\n'])
        = (a :: as) ++ ['\n'] := by
      show List.dropWhile _ (a :: (as ++ ['\n'])) = _
      rw [List.dropWhile_cons]
      simp [ha]
    have hrev : ((a :: as) ++ ['\n']).reverse = '\n' :: (a :: as).reverse := by
      rw [List.reverse_append]
      rfl
    have h2 : List.dropWhile (fun c => decide (c ∈ dcs)) ('\n' :: (a :: as).reverse)
        = List.dropWhile (fun c => decide (c ∈ dcs)) ((a :: as).reverse) := by
      rw [List.dropWhile_cons]
      simp [dcs]
    have h3 : List.dropWhile (fun c => decide (c ∈ dcs)) ((a :: as).reverse)
        = (a :: as).reverse := by
      apply dropWhile_eq_self_of_head
      intro c hc
      rw [List.head?_reverse] at hc
      simp [hl c hc]
    unfold stripChars
    rw [h1, hrev, h2, h3, List.reverse_reverse]

lemma stripTrailingOnly_content (m : List Char)
    (hl : ∀ c, m.getLast? = some c → ¬ c ∈ dcs) :
    stripTrailingOnly (m ++ ['\n']) = m := by
  unfold stripTrailingOnly
  have hrev : (m ++ ['\n']).reverse = '\n' :: m.reverse := by
    rw [List.reverse_append]
    rfl
  have h2 : List.dropWhile (fun c => decide (c ∈ dcs)) ('\n' :: m.reverse)
      = List.dropWhile (fun c => decide (c ∈ dcs)) (m.reverse) := by
    rw [List.dropWhile_cons]
    simp [dcs]
  have h3 : List.dropWhile (fun c => decide (c ∈ dcs)) (m.reverse)
      = m.reverse := by
    apply dropWhile_eq_self_of_head
    intro c hc
    rw [List.head?_reverse] at hc
    simp [hl c hc]
  rw [hrev, h2, h3, List.reverse_reverse]

/-- C6 counterexample: on the line `",a"` (a leading blank cell) the code's
parse (`strip(',\n')` strips BOTH ends) drops the blank leading cell and
promotes `"a"` to the section label, while the claim's trailing-only
stripping would keep the blank label and offer `"a"` as an option. -/
theorem c6_counterexample :
    parseLineA (",a".toList) = ["a"] ∧
    specParseA (",a".toList) = ["", "a"] ∧
    parseLineA (",a".toList) ≠ specParseA (",a".toList) := by decide

/-- C6 amended: the transformation strips leading AND trailing `','`/`'\n'`
characters; on a line whose first character is not a delimiter the claim's
description is exact, and for content with non-delimiter first and last
characters the parse is precisely the verbatim comma-split (label = first
cell, options = remaining cells, interior blank cells kept). -/
theorem c6_section_extraction_amended :
    (∀ (line : List Char), (∀ c, line.head? = some c → ¬ c ∈ dcs) →
        parseLineA line = specParseA line) ∧
    (∀ (m : List Char),
        (∀ c, m.head? = some c → ¬ c ∈ dcs) →
        (∀ c, m.getLast? = some c → ¬ c ∈ dcs) →
        parseLineA (m ++ ['\n']) = (splitComma m).map (fun c => String.mk c)) := by
  constructor
  · intro line hh
    have h1 : List.dropWhile (fun c => decide (c ∈ dcs)) line = line := by
      apply dropWhile_eq_self_of_head
      intro c hc
      simp [hh c hc]
    unfold parseLineA specParseA stripChars stripTrailingOnly
    rw [h1]
  · intro m hh hl
    unfold parseLineA
    rw [stripChars_content m hh hl]

/-! `splitComma` facts and the file round trip for variant A saving. -/

lemma splitComma_ne_nil (cs : List Char) : splitComma cs ≠ [] := by
  induction cs with
  | nil => simp [splitComma]
  | cons c cs ih =>
    unfold splitComma
    by_cases hc : c = ','
    · simp [hc]
    · simp only [if_neg hc]
      cases h : splitComma cs with
      | nil => simp
      | cons p ps => simp

lemma splitComma_append_comma (a b : List Char) :
    splitComma (a ++ ',' :: b) = splitComma a ++ splitComma b := by
  induction a with
  | nil => rfl
  | cons c cs ih =>
    show splitComma (c :: (cs ++ ',' :: b)) = splitComma (c :: cs) ++ _
    simp only [splitComma]
    by_cases hc : c = ','
    · simp [hc, ih]
    · simp only [if_neg hc]
      rw [ih]
      cases h : splitComma cs with
      | nil => exact absurd h (splitComma_ne_nil cs)
      | cons p ps => simp [h]

lemma splitComma_no_comma (w : List Char) (h : ¬ ',' ∈ w) : splitComma w = [w] := by
  induction w with
  | nil => rfl
  | cons c cs ih =>
    have hc : ¬ c = ',' := by
      intro he
      exact h (he ▸ List.mem_cons_self c cs)
    have hcs : ¬ ',' ∈ cs := fun hm => h (List.mem_cons_of_mem c hm)
    unfold splitComma
    rw [if_neg hc, ih hcs]

lemma readlinesAux_line (m : List Char) : ∀ (rest acc : List Char), ¬ '\n' ∈ m →
    readlinesAux (m ++ '\n' :: rest) acc
      = (acc.reverse ++ (m ++ ['\n'])) :: readlinesAux rest [] := by
  induction m with
  | nil =>
    intro rest acc h
    simp [readlinesAux]
  | cons c cs ih =>
    intro rest acc h
    have hc : ¬ c = '\n' := by
      intro he
      exact h (he ▸ List.mem_cons_self c cs)
    have hcs : ¬ '\n' ∈ cs := fun hm => h (List.mem_cons_of_mem c hm)
    show readlinesAux (c :: (cs ++ '\n' :: rest)) acc = _
    simp only [readlinesAux]
    rw [if_neg hc, ih rest (c :: acc) hcs]
    simp

/-- `readlines` inverts `writelines` on a list of newline-terminated lines
with no interior newline, as produced by `readlines` itself. -/
lemma readlines_writelines (lns : List (List Char))
    (h : ∀ l ∈ lns, ∃ m, l = m ++ ['\n'] ∧ ¬ '\n' ∈ m) :
    readlines (writelines lns) = lns := by
  induction lns with
  | nil => rfl
  | cons l ls ih =>
    obtain ⟨m, hm, hnm⟩ := h l (List.mem_cons_self l ls)
    subst hm
    show readlinesAux ((m ++ ['\n']) ++ writelines ls) [] = _
    rw [List.append_assoc]
    show readlinesAux (m ++ '\n' :: writelines ls) [] = _
    rw [readlinesAux_line m (writelines ls) [] hnm]
    have hr : readlinesAux (writelines ls) [] = readlines (writelines ls) := rfl
    rw [hr, ih (fun l2 hl2 => h l2 (List.mem_cons_of_mem _ hl2))]
    simp

/-- The spec-side reading of a stored row with no trailing-newline content:
dropping the final newline and splitting on commas. -/
lemma rawCells_append_nl (x : List Char)
    (hx : ∀ c, x.getLast? = some c → ¬ c = '\n') :
    rawCells (x ++ ['\n']) = splitComma x := by
  unfold rawCells
  have hrev : (x ++ ['\n']).reverse = '\n' :: x.reverse := by
    rw [List.reverse_append]
    rfl
  have h2 : List.dropWhile (fun c => decide (c = '\n')) ('\n' :: x.reverse)
      = List.dropWhile (fun c => decide (c = '\n')) (x.reverse) := by
    rw [List.dropWhile_cons]
    simp
  have h3 : List.dropWhile (fun c => decide (c = '\n')) (x.reverse)
      = x.reverse := by
    apply dropWhile_eq_self_of_head
    intro c hc
    rw [List.head?_reverse] at hc
    simp [hx c hc]
  rw [hrev, h2, h3, List.reverse_reverse]

lemma mem_of_getLast?_eq (l : List Char) (c : Char) (h : l.getLast? = some c) :
    c ∈ l := by
  have hm : c ∈ l.getLast? := by
    rw [Option.mem_def]
    exact h
  obtain ⟨hne, heq⟩ := List.mem_getLast?_eq_getLast hm
  rw [heq]
  exact List.getLast_mem hne

/-- C2 counterexample: for the loaded table whose single row is `"a,\n"`
(its cell list is `["a", ""]`) and the word `"w"`, saving rewrites the row
to `"a,w\n"`, whose cell list is `["a", "w"]` — the trailing empty cell was
destroyed, so the reloaded file is NOT the original row with the word
appended as a new cell at the end. -/
theorem c2_counterexample :
    readlines (writelines (save_word ["a,\n".toList] 0 ("w".toList)))
      = ["a,w\n".toList] ∧
    rawCells ("a,w\n".toList) = ["a".toList, "w".toList] ∧
    rawCells ("a,\n".toList) ++ ["w".toList] = ["a".toList, [], "w".toList] ∧
    ¬ rawCells ("a,w\n".toList) = rawCells ("a,\n".toList) ++ ["w".toList] := by
  decide

/-- C2 amended: saving a word and reloading reproduces every row in order,
all rows other than the current one byte-for-byte unchanged; the current
row is replaced by its content stripped of leading/trailing `','`/`'\n'`
characters with `,word` inserted before the final newline — so for a
current row whose content starts and ends with a non-delimiter character
(and a nonempty, delimiter-free word) this is exactly appending the word
as a new cell at the end of that row. -/
theorem c2_save_round_trip_amended :
    ∀ (lns : List (List Char)) (i : Nat) (w m : List Char),
      (∀ l ∈ lns, ∃ m2, l = m2 ++ ['\n'] ∧ ¬ '\n' ∈ m2) →
      lns.get? i = some (m ++ ['\n']) →
      ¬ '\n' ∈ m →
      (∀ c, m.head? = some c → ¬ c ∈ dcs) →
      (∀ c, m.getLast? = some c → ¬ c ∈ dcs) →
      ¬ w = [] → ¬ ',' ∈ w → ¬ '\n' ∈ w →
      readlines (writelines (save_word lns i w))
        = lns.set i (m ++ ',' :: (w ++ ['\n'])) ∧
      rawCells (m ++ ',' :: (w ++ ['\n'])) = rawCells (m ++ ['\n']) ++ [w] ∧
      (∀ j, ¬ j = i →
        (lns.set i (m ++ ',' :: (w ++ ['\n']))).get? j = lns.get? j) := by
  intro lns i w m hwf hi hvm hmh hml hw0 hwc hwn
  have hg : lns.getD i [] = m ++ ['\n'] := by
    rw [List.getD_eq_getElem?_getD, ← List.get?_eq_getElem?, hi]
    rfl
  have hstrip : stripChars (m ++ ['\n']) = m := stripChars_content m hmh hml
  have hsave : save_word lns i w = lns.set i (m ++ ',' :: (w ++ ['\n'])) := by
    unfold save_word
    rw [hg, hstrip]
  have hassoc : m ++ ',' :: (w ++ ['\n']) = (m ++ ',' :: w) ++ ['\n'] := by
    simp
  refine ⟨?_, ?_, ?_⟩
  · rw [hsave]
    apply readlines_writelines
    intro l hl
    rcases List.mem_or_eq_of_mem_set hl with hmem | heq
    · exact hwf l hmem
    · refine ⟨m ++ ',' :: w, by rw [heq, hassoc], ?_⟩
      intro hmm
      rcases List.mem_append.mp hmm with h1 | h2
      · exact hvm h1
      · rcases List.mem_cons.mp h2 with h3 | h4
        · exact absurd h3 (by decide)
        · exact hwn h4
  · have hlast_mw : ∀ c, (m ++ ',' :: w).getLast? = some c → ¬ c = '\n' := by
      intro c hc
      rw [List.getLast?_append_cons] at hc
      cases w with
      | nil => exact absurd rfl hw0
      | cons x xs =>
        rw [List.getLast?_cons_cons] at hc
        have hcm : c ∈ x :: xs := mem_of_getLast?_eq _ _ hc
        intro he
        exact hwn (he ▸ hcm)
    have e1 : rawCells ((m ++ ',' :: w) ++ ['\n']) = splitComma (m ++ ',' :: w) :=
      rawCells_append_nl _ hlast_mw
    have e2 : rawCells (m ++ ['\n']) = splitComma m :=
      rawCells_append_nl m
        (fun c hc he => hml c hc (he ▸ (by decide : ('\n' : Char) ∈ dcs)))
    rw [hassoc, e1, e2, splitComma_append_comma, splitComma_no_comma w hwc]
  · intro j hj
    rw [List.get?_eq_getElem?, List.get?_eq_getElem?]
    exact List.getElem?_set_ne (fun he => hj he.symm)

/-- Witness for C2 amended at the concrete table `["ab,c\n", "d\n"]`, row 0,
word `"w"`: the reloaded file is `["ab,c,w\n", "d\n"]` and the new row's
cells are the old cells plus `"w"`. -/
theorem c2_amended_witness :
    readlines (writelines (save_word ["ab,c\n".toList, "d\n".toList] 0 ("w".toList)))
      = ["ab,c,w\n".toList, "d\n".toList] ∧
    rawCells ("ab,c".toList ++ ',' :: ("w".toList ++ ['\n']))
      = rawCells ("ab,c".toList ++ ['\n']) ++ ["w".toList] := by
  have hwf : ∀ l ∈ (["ab,c\n".toList, "d\n".toList] : List (List Char)),
      ∃ m2, l = m2 ++ ['\n'] ∧ ¬ '\n' ∈ m2 := by
    intro l hl
    rcases List.mem_cons.mp hl with h1 | h2
    · exact ⟨"ab,c".toList, by rw [h1]; decide, by decide⟩
    · rcases List.mem_cons.mp h2 with h3 | h4
      · exact ⟨"d".toList, by rw [h3]; decide, by decide⟩
      · simp at h4
  have h := c2_save_round_trip_amended ["ab,c\n".toList, "d\n".toList] 0
    ("w".toList) ("ab,c".toList) hwf (by decide) (by decide) (by decide)
    (by decide) (by decide) (by decide) (by decide)
  refine ⟨?_, h.2.1⟩
  rw [h.1]
  decide

/-- Witness for C6 amended, showing an interior blank cell surviving the
parse unchanged on the line `"a,,b\n"`. -/
theorem c6_amended_witness :
    (∀ c, ("a,,b".toList).head? = some c → ¬ c ∈ dcs) ∧
    (∀ c, ("a,,b".toList).getLast? = some c → ¬ c ∈ dcs) ∧
    parseLineA ("a,,b".toList ++ ['\n']) = ["a", "", "b"] :=
  ⟨by decide, by decide,
    by
      rw [c6_section_extraction_amended.2 ("a,,b".toList) (by decide) (by decide)]
      decide⟩

/-! Ragged tables: variant A parses any line, variant B truncates. -/

lemma maxRowLen_const (c : Nat) :
    ∀ (rows : List (List String)), ¬ rows = [] →
      (∀ r ∈ rows, r.length = c) → maxRowLen rows = c := by
  intro rows
  induction rows with
  | nil => intro h; exact absurd rfl h
  | cons r rs ih =>
    intro _ h
    have hr : r.length = c := h r (List.mem_cons_self r rs)
    cases rs with
    | nil => simp [maxRowLen, hr]
    | cons r2 rs2 =>
      have hrec : maxRowLen (r2 :: rs2) = c :=
        ih (by simp) (fun x hx => h x (List.mem_cons_of_mem r hx))
      show max r.length (maxRowLen (r2 :: rs2)) = c
      rw [hr, hrec]
      exact Nat.max_self c

lemma foldl_min_const (c : Nat) :
    ∀ (rs : List (List String)), (∀ r ∈ rs, r.length = c) →
      rs.foldl (fun m x => min m x.length) c = c := by
  intro rs
  induction rs with
  | nil => intro _; rfl
  | cons r rs ih =>
    intro h
    show (r :: rs).foldl (fun m x => min m x.length) c = c
    rw [List.foldl_cons]
    have hr : r.length = c := h r (List.mem_cons_self r rs)
    rw [hr, Nat.min_self]
    exact ih (fun x hx => h x (List.mem_cons_of_mem r hx))

lemma minRowLen_const (c : Nat) (rows : List (List String))
    (hne : ¬ rows = []) (h : ∀ r ∈ rows, r.length = c) : minRowLen rows = c := by
  cases rows with
  | nil => exact absurd rfl hne
  | cons r rs =>
    show rs.foldl (fun m x => min m x.length) r.length = c
    rw [h r (List.mem_cons_self r rs)]
    exact foldl_min_const c rs (fun x hx => h x (List.mem_cons_of_mem r hx))

/-- C8 counterexample: for the ragged table `[["Sec","a","b"], ["X"]]`,
the truncating transpose (`zip`) keeps only one column, so the walked
sections drop the sections `"a"` and `"b"` entirely instead of treating the
missing cells of the short row as absent options. -/
theorem c8_counterexample :
    sectionsOf (zipTranspose [["Sec", "a", "b"], ["X"]]) = [("Sec", ["X"])] ∧
    sectionsOf (padTranspose [["Sec", "a", "b"], ["X"]])
      = [("Sec", ["X"]), ("a", []), ("b", [])] ∧
    ¬ sectionsOf (zipTranspose [["Sec", "a", "b"], ["X"]])
        = sectionsOf (padTranspose [["Sec", "a", "b"], ["X"]]) := by decide

/-- C8 amended: variant A never errors on ragged or empty rows — every line
parses to a nonempty cell list, so the label/options split always exists
and missing cells are simply absent options.  In variant B the transpose
truncates every column to the shortest row's length, dropping cells of
longer rows (and whole sections); the walked sections agree with the
missing-cells-as-absent-options (padded) semantics exactly on tables whose
rows all have equal length. -/
theorem c8_malformed_rows_amended :
    (∀ line : List Char, ¬ parseLineA line = []) ∧
    (∀ rows : List (List String), (∀ r ∈ rows, r.length = minRowLen rows) →
        zipTranspose rows = padTranspose rows) ∧
    (∀ rows : List (List String), (∀ r ∈ rows, r.length = minRowLen rows) →
        sectionsOf (zipTranspose rows) = sectionsOf (padTranspose rows)) := by
  have key : ∀ rows : List (List String),
      (∀ r ∈ rows, r.length = minRowLen rows) →
      zipTranspose rows = padTranspose rows := by
    intro rows h
    cases hrows : rows with
    | nil => rfl
    | cons r rs =>
      have hne : ¬ rows = [] := by rw [hrows]; simp
      have hmax : maxRowLen rows = minRowLen rows :=
        maxRowLen_const (minRowLen rows) rows hne h
      rw [← hrows]
      show zipTranspose rows = padTranspose rows
      unfold zipTranspose padTranspose
      rw [hmax]
      rw [hrows]
  refine ⟨?_, key, ?_⟩
  · intro line h
    unfold parseLineA at h
    have := splitComma_ne_nil (stripChars line)
    simp at h
    exact this h
  · intro rows h
    rw [key rows h]

/-- Witness for C8 amended at a rectangular table: the truncating and the
padded transposes agree, and their walked sections agree. -/
theorem c8_amended_witness :
    (∀ r ∈ ([["A", "x"], ["B", "y"]] : List (List String)),
        r.length = minRowLen [["A", "x"], ["B", "y"]]) ∧
    zipTranspose [["A", "x"], ["B", "y"]] = padTranspose [["A", "x"], ["B", "y"]] ∧
    ¬ parseLineA (",".toList) = [] :=
  ⟨by decide,
   c8_malformed_rows_amended.2.1 [["A", "x"], ["B", "y"]] (by decide),
   c8_malformed_rows_amended.1 (",".toList)⟩

/-! The section walker of variant B never emits an anonymous row. -/

lemma findSectionFrom_sound :
    ∀ (tds : List (List String)) (i k : Nat) (l : String) (rest : List String),
      findSectionFrom tds i = some (k, l, rest) →
      i ≤ k ∧ tds.get? (k - i) = some (l :: rest) ∧ ¬ l = "" := by
  intro tds
  induction tds with
  | nil =>
    intro i k l rest h
    exact absurd h (by simp [findSectionFrom])
  | cons row tds ih =>
    intro i k l rest h
    cases row with
    | nil => exact absurd h (by simp [findSectionFrom])
    | cons l0 rest0 =>
      by_cases h0 : l0 = ""
      · rw [show findSectionFrom ((l0 :: rest0) :: tds) i
            = findSectionFrom tds (i + 1) from by
              simp [findSectionFrom, h0]] at h
        obtain ⟨h1, h2, h3⟩ := ih (i + 1) k l rest h
        refine ⟨by omega, ?_, h3⟩
        have hki : k - i = (k - (i + 1)) + 1 := by omega
        rw [hki]
        simpa using h2
      · rw [show findSectionFrom ((l0 :: rest0) :: tds) i = some (i, l0, rest0) from by
              simp [findSectionFrom, h0]] at h
        have hk : i = k ∧ l0 = l ∧ rest0 = rest := by
          simpa using h
        obtain ⟨hk1, hk2, hk3⟩ := hk
        subst hk1
        subst hk2
        subst hk3
        exact ⟨Nat.le_refl i, by simp, h0⟩

/-- `findSection` soundness on the full table: the returned row is at or
after the start index, really is the table's row there, and is labeled. -/
lemma findSection_label (td : List (List String)) (i k : Nat) (l : String)
    (rest : List String) (h : findSection td i = some (k, l, rest)) :
    ¬ l = "" ∧ i ≤ k ∧ td.get? k = some (l :: rest) := by
  obtain ⟨h1, h2, h3⟩ := findSectionFrom_sound (td.drop i) i k l rest h
  refine ⟨h3, h1, ?_⟩
  rw [List.get?_drop] at h2
  rw [show i + (k - i) = k from by omega] at h2
  exact h2

lemma update_buttonsV_invSrc (td : List (List String)) (s : VState)
    (h : InvSrc td s) : InvSrc td (update_buttonsV td s) := by
  unfold update_buttonsV
  cases hf : findSection td s.cri with
  | none => exact fun k hk => h k hk
  | some x =>
    obtain ⟨k0, l0, rest0⟩ := x
    intro k hk
    have hk0 : k0 = k := by simpa using hk
    subst hk0
    obtain ⟨hl, _, hget⟩ := findSection_label td s.cri k0 l0 rest0 hf
    exact ⟨l0, rest0, hget, hl⟩

lemma on_enterV_invSrc (td : List (List String)) (s : VState) (t : String)
    (h : InvSrc td s) : InvSrc td (on_enterV td s t) :=
  update_buttonsV_invSrc td _ (fun k hk => h k hk)

lemma commitOrFill_invSrc (td : List (List String)) (s : VState) (w : String)
    (h : InvSrc td s) : InvSrc td (commitOrFill td s w) := by
  unfold commitOrFill
  by_cases ha : s.alt = true
  · rw [if_pos ha]
    exact on_enterV_invSrc td s w h
  · rw [if_neg ha]
    exact h

lemma insert_word_invSrc (og td : List (List String)) (s : VState) (w : String)
    (s2 : VState) (hInv : InvSrc td s) (h : insert_word og td s w = some s2) :
    InvSrc td s2 := by
  unfold insert_word at h
  split at h
  · split at h
    · exact absurd h (by simp)
    · split at h
      · split at h
        · split at h
          · split at h
            · exact absurd h (by simp)
            · split at h
              · have h2 := Option.some.inj h
                rw [← h2]
                exact commitOrFill_invSrc td _ w (fun k hk => hInv k hk)
              · have h2 := Option.some.inj h
                rw [← h2]
                intro k hk
                exact absurd hk (by simp [handle_subsection])
          · exact absurd h (by simp)
        · exact absurd h (by simp)
      · have h2 := Option.some.inj h
        rw [← h2]
        exact commitOrFill_invSrc td s w hInv
  · have h2 := Option.some.inj h
    rw [← h2]
    exact commitOrFill_invSrc td s w hInv

lemma vstep_invSrc (og td : List (List String)) (s : VState) (e : VEvent)
    (s2 : VState) (hInv : InvSrc td s) (h : vstep og td s e = some s2) :
    InvSrc td s2 := by
  cases e with
  | click w =>
    simp only [vstep] at h
    by_cases hd : s.done = true
    · rw [if_pos hd] at h
      rw [← Option.some.inj h]
      exact hInv
    · rw [if_neg hd] at h
      by_cases hw : w ∈ s.buttonWords ∧ w ≠ ""
      · rw [if_pos hw] at h
        exact insert_word_invSrc og td s w s2 hInv h
      · rw [if_neg hw] at h
        rw [← Option.some.inj h]
        exact hInv
  | enter t =>
    simp only [vstep] at h
    by_cases hd : s.done = true
    · rw [if_pos hd] at h
      rw [← Option.some.inj h]
      exact hInv
    · rw [if_neg hd] at h
      rw [← Option.some.inj h]
      exact on_enterV_invSrc td s t hInv
  | toggleAlt =>
    simp only [vstep] at h
    by_cases hd : s.done = true
    · rw [if_pos hd] at h
      rw [← Option.some.inj h]
      exact hInv
    · rw [if_neg hd] at h
      rw [← Option.some.inj h]
      exact fun k hk => hInv k hk

lemma vrun_invSrc (og td : List (List String)) :
    ∀ (evs : List VEvent) (s s2 : VState), InvSrc td s →
      vrun og td s evs = some s2 → InvSrc td s2 := by
  intro evs
  induction evs with
  | nil =>
    intro s s2 h hr
    unfold vrun at hr
    rw [← Option.some.inj hr]
    exact h
  | cons e es ih =>
    intro s s2 h hr
    unfold vrun at hr
    cases hs : vstep og td s e with
    | none =>
      rw [hs] at hr
      exact absurd hr (by simp)
    | some s1 =>
      rw [hs] at hr
      exact ih s1 s2 (vstep_invSrc og td s e s1 h hs) hr

/-- C7 counterexample: on the table whose first column is anonymous
(`og = [[""], ["x"]]`), the startup path presents that column as a live
top-level section — empty label, its value `"x"` offered as a button —
without any subsection expansion, because `run_file_reader` displays
`transposed_data[0]` without the empty-label skip of `update_buttons`. -/
theorem c7_counterexample :
    zipTranspose [[""], ["x"]] = [["", "x"]] ∧
    (vinit (zipTranspose [[""], ["x"]]) "S").label = "" ∧
    (vinit (zipTranspose [[""], ["x"]]) "S").buttonWords = ["x"] ∧
    (vinit (zipTranspose [[""], ["x"]]) "S").srcRow = some 0 ∧
    (vinit (zipTranspose [[""], ["x"]]) "S").done = false := by decide

/-- C7 amended: the walker (`update_buttons`) never emits an anonymous
transposed row — any section it returns is labeled, located at or after the
requested cursor, and when no labeled row remains the session ends; in any
error-free session on a table whose FIRST transposed row is labeled, every
top-level section ever displayed comes from a labeled row, so anonymous
columns are reachable only through subsection expansion.  (The startup
path, by contrast, shows row 0 without the skip — see the counterexample.) -/
theorem c7_anonymous_never_top_level_amended :
    (∀ (td : List (List String)) (i k : Nat) (l : String) (rest : List String),
        findSection td i = some (k, l, rest) →
        ¬ l = "" ∧ i ≤ k ∧ td.get? k = some (l :: rest)) ∧
    (∀ (td : List (List String)) (s : VState),
        findSection td s.cri = none → (update_buttonsV td s).done = true) ∧
    (∀ (og td tdrest : List (List String)) (l0 : String) (r0 : List String)
        (seed : String) (evs : List VEvent) (s2 : VState),
        td = (l0 :: r0) :: tdrest → ¬ l0 = "" →
        vrun og td (vinit td seed) evs = some s2 →
        ∀ k, s2.srcRow = some k →
          ∃ l rest, td.get? k = some (l :: rest) ∧ ¬ l = "") := by
  refine ⟨findSection_label, ?_, ?_⟩
  · intro td s h
    unfold update_buttonsV
    rw [h]
  · intro og td tdrest l0 r0 seed evs s2 htd hl0 hr
    have hinit : InvSrc td (vinit td seed) := by
      rw [htd]
      intro k hk
      have hk0 : (0 : Nat) = k := by
        simpa [vinit] using hk
      subst hk0
      exact ⟨l0, r0, by simp, hl0⟩
    exact vrun_invSrc og td evs (vinit td seed) s2 hinit hr

/-- Witness for C7 amended on the scenario table: after skipping the
`Tests` section the displayed section comes from transposed row 1, which is
the labeled `Freq` row. -/
theorem c7_amended_witness :
    ∃ l rest, tdScen.get? 1 = some (l :: rest) ∧ ¬ l = "" := by
  have hrun : vrun ogScen tdScen (vinit tdScen "S") [.enter ""]
      = some { cri := 2, title := "S", label := "Freq",
               buttonWords := ["2.4", "5.1", "5.7"], srcRow := some 1,
               alt := true, done := false, presented := 2,
               accepted := [], skips := 1 } := by decide
  exact c7_anonymous_never_top_level_amended.2.2 ogScen tdScen
    [["Freq", "2.4", "5.1", "5.7"], ["", "2412", "5180", ""], ["", "2437", "", ""]]
    "Tests" ["PSD", "PWR", "OBW"] "S" [.enter ""] _ (by decide) (by decide)
    hrun 1 rfl

/-! The token-per-section bookkeeping of claim C3. -/

lemma joinTok_concat (sep : String) (ts : List String) (t : String) :
    joinTok sep (ts ++ [t]) = joinTok sep ts ++ (sep ++ t) := by
  induction ts with
  | nil => simp [joinTok, String.append_empty, String.empty_append]
  | cons h ts ih =>
    show (sep ++ h) ++ joinTok sep (ts ++ [t]) = ((sep ++ h) ++ joinTok sep ts) ++ _
    rw [ih]
    simp [String.append_assoc]

lemma accept_joinTok (sep seed : String) (acc : List String) (t : String) :
    accept sep (seed ++ joinTok sep acc) t
      = seed ++ joinTok sep (if t = "" then acc else acc ++ [t]) := by
  by_cases ht : t = ""
  · simp [accept, ht]
  · simp [accept, ht, joinTok_concat, String.append_assoc]

lemma update_buttonsV_vinv (td : List (List String)) (seed : String) (s : VState)
    (hd : s.done = false)
    (ht : s.title = seed ++ joinTok connector s.accepted)
    (hc : s.accepted.length + s.skips = s.presented) :
    VInv seed (update_buttonsV td s) := by
  unfold update_buttonsV
  cases findSection td s.cri with
  | none => exact ⟨ht, by simpa using hc⟩
  | some x =>
    obtain ⟨k, l, rest⟩ := x
    refine ⟨ht, ?_⟩
    show s.accepted.length + s.skips + (cond s.done 0 1) = s.presented + 1
    rw [hd]
    simp only [Bool.cond_false]
    omega

lemma on_enterV_vinv (td : List (List String)) (seed : String) (s : VState)
    (t : String) (hd : s.done = false) (hI : VInv seed s) :
    VInv seed (on_enterV td s t) := by
  obtain ⟨ht, hc⟩ := hI
  unfold on_enterV
  refine update_buttonsV_vinv td seed _ ?_ ?_ ?_
  · exact hd
  · show accept connector s.title t = seed ++ joinTok connector _
    rw [ht, accept_joinTok]
  · show (if t = "" then s.accepted else s.accepted ++ [t]).length
        + (if t = "" then s.skips + 1 else s.skips) = s.presented
    rw [hd] at hc
    simp only [Bool.cond_false] at hc
    by_cases htt : t = ""
    · rw [if_pos htt, if_pos htt]
      omega
    · rw [if_neg htt, if_neg htt]
      rw [List.length_append]
      simp only [List.length_cons, List.length_nil]
      omega

lemma commitOrFill_vinv (td : List (List String)) (seed : String) (s : VState)
    (w : String) (hd : s.done = false) (hI : VInv seed s) :
    VInv seed (commitOrFill td s w) := by
  unfold commitOrFill
  by_cases ha : s.alt = true
  · rw [if_pos ha]
    exact on_enterV_vinv td seed s w hd hI
  · rw [if_neg ha]
    exact hI

lemma insert_word_vinv (og td : List (List String)) (seed : String) (s : VState)
    (w : String) (s2 : VState) (hd : s.done = false) (hI : VInv seed s)
    (h : insert_word og td s w = some s2) : VInv seed s2 := by
  unfold insert_word at h
  split at h
  · split at h
    · exact absurd h (by simp)
    · split at h
      · split at h
        · split at h
          · split at h
            · exact absurd h (by simp)
            · split at h
              · rw [← Option.some.inj h]
                exact commitOrFill_vinv td seed _ w hd ⟨hI.1, hI.2⟩
              · rw [← Option.some.inj h]
                exact ⟨hI.1, hI.2⟩
          · exact absurd h (by simp)
        · exact absurd h (by simp)
      · rw [← Option.some.inj h]
        exact commitOrFill_vinv td seed s w hd hI
  · rw [← Option.some.inj h]
    exact commitOrFill_vinv td seed s w hd hI

lemma vstep_vinv (og td : List (List String)) (seed : String) (s : VState)
    (e : VEvent) (s2 : VState) (hI : VInv seed s)
    (h : vstep og td s e = some s2) : VInv seed s2 := by
  cases e with
  | click w =>
    simp only [vstep] at h
    by_cases hd : s.done = true
    · rw [if_pos hd] at h
      rw [← Option.some.inj h]
      exact hI
    · rw [if_neg hd] at h
      by_cases hw : w ∈ s.buttonWords ∧ w ≠ ""
      · rw [if_pos hw] at h
        exact insert_word_vinv og td seed s w s2 (by simpa using hd) hI h
      · rw [if_neg hw] at h
        rw [← Option.some.inj h]
        exact hI
  | enter t =>
    simp only [vstep] at h
    by_cases hd : s.done = true
    · rw [if_pos hd] at h
      rw [← Option.some.inj h]
      exact hI
    · rw [if_neg hd] at h
      rw [← Option.some.inj h]
      exact on_enterV_vinv td seed s t (by simpa using hd) hI
  | toggleAlt =>
    simp only [vstep] at h
    by_cases hd : s.done = true
    · rw [if_pos hd] at h
      rw [← Option.some.inj h]
      exact hI
    · rw [if_neg hd] at h
      rw [← Option.some.inj h]
      exact ⟨hI.1, hI.2⟩

lemma vrun_vinv (og td : List (List String)) (seed : String) :
    ∀ (evs : List VEvent) (s s2 : VState), VInv seed s →
      vrun og td s evs = some s2 → VInv seed s2 := by
  intro evs
  induction evs with
  | nil =>
    intro s s2 h hr
    unfold vrun at hr
    rw [← Option.some.inj hr]
    exact h
  | cons e es ih =>
    intro s s2 h hr
    unfold vrun at hr
    cases hs : vstep og td s e with
    | none =>
      rw [hs] at hr
      exact absurd hr (by simp)
    | some s1 =>
      rw [hs] at hr
      exact ih s1 s2 (vstep_vinv og td seed s e s1 h hs) hr

lemma update_buttonsH_hinv (seed : String) (s : HState)
    (hd : s.done = false)
    (ht : s.title = seed ++ joinTok "_" s.accepted)
    (hc : s.accepted.length + s.skips = s.presented) :
    HInv seed (update_buttonsH s) := by
  unfold update_buttonsH
  cases s.lins.get? s.it with
  | none => exact ⟨ht, by simpa using hc⟩
  | some line =>
    refine ⟨ht, ?_⟩
    show s.accepted.length + s.skips + (cond s.done 0 1) = s.presented + 1
    rw [hd]
    simp only [Bool.cond_false]
    omega

lemma on_enterH_hinv (seed : String) (s : HState) (t : String)
    (hd : s.done = false) (hI : HInv seed s) :
    HInv seed (on_enterH s t) := by
  obtain ⟨ht, hc⟩ := hI
  unfold on_enterH
  refine update_buttonsH_hinv seed _ ?_ ?_ ?_
  · exact hd
  · show accept "_" s.title t = seed ++ joinTok "_" _
    rw [ht, accept_joinTok]
  · show (if t = "" then s.accepted else s.accepted ++ [t]).length
        + (if t = "" then s.skips + 1 else s.skips) = s.presented
    rw [hd] at hc
    simp only [Bool.cond_false] at hc
    by_cases htt : t = ""
    · rw [if_pos htt, if_pos htt]
      omega
    · rw [if_neg htt, if_neg htt]
      rw [List.length_append]
      simp only [List.length_cons, List.length_nil]
      omega

lemma hstep_hinv (seed : String) (s : HState) (e : HEvent) (hI : HInv seed s) :
    HInv seed (hstep s e) := by
  cases e with
  | click w =>
    simp only [hstep]
    by_cases hd : s.done = true
    · rw [if_pos hd]
      exact hI
    · rw [if_neg hd]
      by_cases hw : w ∈ s.buttonWords
      · rw [if_pos hw]
        by_cases ha : s.alt = true
        · rw [if_pos ha]
          exact on_enterH_hinv seed s w (by simpa using hd) hI
        · rw [if_neg ha]
          exact hI
      · rw [if_neg hw]
        exact hI
  | enter t =>
    simp only [hstep]
    by_cases hd : s.done = true
    · rw [if_pos hd]
      exact hI
    · rw [if_neg hd]
      exact on_enterH_hinv seed s t (by simpa using hd) hI
  | setSave b =>
    simp only [hstep]
    by_cases hd : s.done = true
    · rw [if_pos hd]
      exact hI
    · rw [if_neg hd]
      exact ⟨hI.1, hI.2⟩
  | toggleAlt =>
    simp only [hstep]
    by_cases hd : s.done = true
    · rw [if_pos hd]
      exact hI
    · rw [if_neg hd]
      exact ⟨hI.1, hI.2⟩

lemma hrun_hinv (seed : String) :
    ∀ (evs : List HEvent) (s : HState), HInv seed s →
      HInv seed (hrun s evs) := by
  intro evs
  induction evs with
  | nil =>
    intro s h
    exact h
  | cons e es ih =>
    intro s h
    show HInv seed (hrun (hstep s e) es)
    exact ih (hstep s e) (hstep_hinv seed s e h)

/-- C3 counterexample: in a variant A session on the one-row table
`"Sec,a"`, the section `Sec` is presented and the user commits the empty
token (skip); the session ends with one presented section, no accepted
token, and the title still equal to the seed — a presented section
contributed zero tokens, so the claimed "exactly one token per presented
section" fails. -/
theorem c3_counterexample :
    (hrun (hinit ["Sec,a\n".toList] "S") [.enter ""]).presented = 1 ∧
    (hrun (hinit ["Sec,a\n".toList] "S") [.enter ""]).accepted = [] ∧
    (hrun (hinit ["Sec,a\n".toList] "S") [.enter ""]).skips = 1 ∧
    (hrun (hinit ["Sec,a\n".toList] "S") [.enter ""]).title = "S" ∧
    (hrun (hinit ["Sec,a\n".toList] "S") [.enter ""]).done = true := by decide

/-- C3 amended: the final title contains AT MOST one separator-joined token
per presented section — in every session (both variants, started on a
nonempty table) the title is the seed followed by exactly the accepted
tokens, and accepted tokens plus skipped (empty) commits account for every
presented section except a still-displayed one; so a section presented and
skipped contributes zero tokens, and no section ever contributes more than
one. -/
theorem c3_one_token_per_section_amended :
    (∀ (seed : String) (line : List Char) (lrest : List (List Char))
        (evs : List HEvent),
        HInv seed (hrun (hinit (line :: lrest) seed) evs)) ∧
    (∀ (seed l0 : String) (r0 : List String) (tdrest og : List (List String))
        (evs : List VEvent) (s2 : VState),
        vrun og ((l0 :: r0) :: tdrest) (vinit ((l0 :: r0) :: tdrest) seed) evs
          = some s2 →
        VInv seed s2) := by
  constructor
  · intro seed line lrest evs
    apply hrun_hinv
    unfold hinit HInv
    refine ⟨by simp [joinTok, String.append_empty], by simp⟩
  · intro seed l0 r0 tdrest og evs s2 hr
    apply vrun_vinv og ((l0 :: r0) :: tdrest) seed evs _ s2 _ hr
    unfold vinit VInv
    refine ⟨by simp [joinTok, String.append_empty], by simp⟩

/-- Witness for C3 amended: the scenario session that skips `Tests`, expands
`2.4` and commits `2437` ends with title `"S - 2437"`, one accepted token,
one skip and two presented sections. -/
theorem c3_amended_witness :
    VInv "S"
      { cri := 4, title := "S - 2437", label := "2.4 values",
        buttonWords := ["2412", "2437"], srcRow := none, alt := true,
        done := true, presented := 2, accepted := ["2437"], skips := 1 } := by
  have hrun2 : vrun ogScen
      [["Tests", "PSD", "PWR", "OBW"], ["Freq", "2.4", "5.1", "5.7"],
       ["", "2412", "5180", ""], ["", "2437", "", ""]]
      (vinit [["Tests", "PSD", "PWR", "OBW"], ["Freq", "2.4", "5.1", "5.7"],
       ["", "2412", "5180", ""], ["", "2437", "", ""]] "S")
      [.enter "", .click "2.4", .click "2437"]
      = some { cri := 4, title := "S - 2437", label := "2.4 values",
               buttonWords := ["2412", "2437"], srcRow := none,
               alt := true, done := true, presented := 2,
               accepted := ["2437"], skips := 1 } := by decide
  exact c3_one_token_per_section_amended.2 "S" "Tests" ["PSD", "PWR", "OBW"]
    [["Freq", "2.4", "5.1", "5.7"], ["", "2412", "5180", ""], ["", "2437", "", ""]]
    ogScen [.enter "", .click "2.4", .click "2437"] _ hrun2

/-! The subsection scan of variant B `insert_word` (claims C1 and C10). -/

lemma emptyRun_cons_empty (t : List String) : emptyRun ("" :: t) = emptyRun t + 1 := by
  simp [emptyRun]

lemma emptyRun_cons_ne (h0 : String) (t : List String) (h : ¬ h0 = "") :
    emptyRun (h0 :: t) = 0 := by
  simp [emptyRun, h]

lemma collectSub_stuck (og : List (List String)) (h0 : String) (hne : ¬ h0 = "") :
    ∀ (vs : List String) (j : Nat), (og.headD []).get? j = some h0 →
      collectSub og vs j = some ([], j) := by
  intro vs
  induction vs with
  | nil =>
    intro j _
    rfl
  | cons v vs ih =>
    intro j hg
    simp only [collectSub, hg]
    rw [if_neg hne]
    exact ih j hg

lemma collectSub_spec (og : List (List String)) :
    ∀ (slice : List String) (j : Nat),
      (slice.length ≤ emptyRun ((og.headD []).drop j) ∨
        j + emptyRun ((og.headD []).drop j) < (og.headD []).length) →
      collectSub og slice j
        = some
            ((slice.take
                (min (emptyRun ((og.headD []).drop j)) slice.length)).filter
              (fun v => v ≠ ""),
             j + min (emptyRun ((og.headD []).drop j)) slice.length) := by
  intro slice
  induction slice with
  | nil =>
    intro j _
    simp [collectSub]
  | cons v vs ih =>
    intro j hok
    cases hg : (og.headD []).get? j with
    | none =>
      have hlen : (og.headD []).length ≤ j := List.get?_eq_none.mp hg
      have hdrop : (og.headD []).drop j = [] := by
        rw [List.drop_eq_nil_iff]
        exact hlen
      rw [hdrop] at hok
      rw [show emptyRun ([] : List String) = 0 from rfl] at hok
      rcases hok with h1 | h2
      · simp at h1
      · omega
    | some h0 =>
      have hjlt : j < (og.headD []).length := by
        rcases List.get?_eq_some.mp hg with ⟨hl, _⟩
        exact hl
      have hval : (og.headD []).get ⟨j, hjlt⟩ = h0 := by
        rcases List.get?_eq_some.mp hg with ⟨hl, hv⟩
        exact hv
      have hdropj : (og.headD []).drop j = h0 :: (og.headD []).drop (j + 1) := by
        rw [List.drop_eq_getElem_cons hjlt]
        congr 1
      by_cases h0e : h0 = ""
      · subst h0e
        have hr : emptyRun ((og.headD []).drop j)
            = emptyRun ((og.headD []).drop (j + 1)) + 1 := by
          rw [hdropj, emptyRun_cons_empty]
        have hok2 : vs.length ≤ emptyRun ((og.headD []).drop (j + 1)) ∨
            (j + 1) + emptyRun ((og.headD []).drop (j + 1))
              < (og.headD []).length := by
          rw [hr] at hok
          rcases hok with h1 | h2
          · left
            rw [List.length_cons] at h1
            omega
          · right
            omega
        simp only [collectSub, hg]
        rw [if_pos trivial, ih (j + 1) hok2]
        simp only [List.length_cons]
        rw [hr, Nat.succ_min_succ, List.take_succ_cons, List.filter_cons]
        by_cases hv : v = ""
        · simp [hv]
          omega
        · simp [hv]
          omega
      · have hr0 : emptyRun ((og.headD []).drop j) = 0 := by
          rw [hdropj, emptyRun_cons_ne h0 _ h0e]
        rw [collectSub_stuck og h0 h0e (v :: vs) j hg, hr0]
        simp

/-- Unfolding of `insert_word` in the expansion situation: the next
transposed row is anonymous, the clicked word occurs in the displayed row,
and the scan completes. -/
lemma insert_word_expand (og td : List (List String)) (s : VState) (w : String)
    (rest2 vals : List String) (j2 : Nat)
    (h1 : s.cri < td.length)
    (h2 : td.getD s.cri [] = "" :: rest2)
    (h3 : w ∈ td.getD (s.cri - 1) [])
    (h4 : (td.getD (s.cri - 1) []).indexOf w < og.length)
    (h5 : collectSub og
        ((og.getD ((td.getD (s.cri - 1) []).indexOf w) []).drop s.cri) s.cri
      = some (vals, j2)) :
    insert_word og td s w
      = (if vals.isEmpty then some (commitOrFill td { s with cri := j2 } w)
         else some (handle_subsection { s with cri := j2 } w vals)) := by
  unfold insert_word
  rw [if_pos h1, h2]
  dsimp only
  rw [if_pos rfl, if_pos h3, if_pos h4, h5]

/-- C1: when the clicked token `w` of the displayed section has an
anonymous column right after the cursor, the scan collects exactly the
nonempty cells of `w`'s original row over the anonymous run (`emptyRun`)
and leaves the cursor past it; if any such cells exist they are shown as an
ephemeral section labeled `w ++ " values"` with the title and presented
count untouched, and clicking a sub-value afterwards appends the sub-value
(not `w`) to the title; if none exist, `w` itself is committed directly. -/
theorem c1_subsection_expansion :
    ∀ (og td : List (List String)) (s : VState) (w : String)
      (rest2 vals : List String) (j2 : Nat),
      s.cri < td.length →
      td.getD s.cri [] = "" :: rest2 →
      w ∈ td.getD (s.cri - 1) [] →
      (td.getD (s.cri - 1) []).indexOf w < og.length →
      collectSub og
          ((og.getD ((td.getD (s.cri - 1) []).indexOf w) []).drop s.cri) s.cri
        = some (vals, j2) →
      ((((og.getD ((td.getD (s.cri - 1) []).indexOf w) []).drop s.cri).length
          ≤ emptyRun ((og.headD []).drop s.cri) ∨
        s.cri + emptyRun ((og.headD []).drop s.cri) < (og.headD []).length) →
        vals
          = (((og.getD ((td.getD (s.cri - 1) []).indexOf w) []).drop s.cri).take
              (min (emptyRun ((og.headD []).drop s.cri))
                ((og.getD ((td.getD (s.cri - 1) []).indexOf w) []).drop
                    s.cri).length)).filter (fun v => v ≠ "") ∧
        j2 = s.cri + min (emptyRun ((og.headD []).drop s.cri))
              ((og.getD ((td.getD (s.cri - 1) []).indexOf w) []).drop
                  s.cri).length) ∧
      (¬ vals = [] →
        insert_word og td s w
          = some { s with
                   cri := j2,
                   label := w ++ " values",
                   buttonWords := vals,
                   srcRow := none }) ∧
      (vals = [] →
        insert_word og td s w = some (commitOrFill td { s with cri := j2 } w)) ∧
      (¬ vals = [] → ∀ v : String, s.alt = true →
        (td.length ≤ j2 ∨ ∃ l2 r3, td.getD j2 [] = l2 :: r3 ∧ ¬ l2 = "") →
        insert_word og td
            { s with
              cri := j2,
              label := w ++ " values",
              buttonWords := vals,
              srcRow := none } v
          = some (on_enterV td
              { s with
                cri := j2,
                label := w ++ " values",
                buttonWords := vals,
                srcRow := none } v) ∧
        (on_enterV td
            { s with
              cri := j2,
              label := w ++ " values",
              buttonWords := vals,
              srcRow := none } v).title
          = accept connector s.title v) := by
  intro og td s w rest2 vals j2 h1 h2 h3 h4 h5
  refine ⟨?_, ?_, ?_, ?_⟩
  · intro hok
    have hspec := collectSub_spec og
      ((og.getD ((td.getD (s.cri - 1) []).indexOf w) []).drop s.cri) s.cri hok
    rw [h5] at hspec
    have hp := Option.some.inj hspec
    exact ⟨congrArg Prod.fst hp, congrArg Prod.snd hp⟩
  · intro hne
    rw [insert_word_expand og td s w rest2 vals j2 h1 h2 h3 h4 h5]
    rw [if_neg (by simpa using hne)]
    rfl
  · intro hemp
    rw [insert_word_expand og td s w rest2 vals j2 h1 h2 h3 h4 h5]
    rw [if_pos (by simpa using hemp)]
  · intro _ v halt hend
    constructor
    · unfold insert_word
      rcases hend with hge | ⟨l2, r3, hrow, hl2⟩
      · rw [if_neg (by simpa using Nat.not_lt.mpr hge)]
        unfold commitOrFill
        rw [if_pos halt]
      · have hj : j2 < td.length := by
          by_contra hc
          rw [List.getD_eq_default _ _ (Nat.le_of_not_lt hc)] at hrow
          exact absurd hrow (by simp)
        rw [if_pos (by simpa using hj), hrow]
        dsimp only
        rw [if_neg hl2]
        unfold commitOrFill
        rw [if_pos halt]
    · exact on_enterV_title td _ v

/-- Witness for C1 on the spec's scenario table: with `Freq` displayed and
the cursor at the first anonymous column, clicking `"2.4"` presents the
ephemeral section `"2.4 values"` with buttons `[2412, 2437]`, leaving the
title and the presented count unchanged and the cursor past both anonymous
columns. -/
theorem c1_witness :
    insert_word ogScen tdScen
        { cri := 2, title := "S", label := "Freq",
          buttonWords := ["2.4", "5.1", "5.7"], srcRow := some 1, alt := true,
          done := false, presented := 2, accepted := [], skips := 1 } "2.4"
      = some { cri := 4, title := "S", label := "2.4 values",
               buttonWords := ["2412", "2437"], srcRow := none, alt := true,
               done := false, presented := 2, accepted := [], skips := 1 } :=
  (c1_subsection_expansion ogScen tdScen
    { cri := 2, title := "S", label := "Freq",
      buttonWords := ["2.4", "5.1", "5.7"], srcRow := some 1, alt := true,
      done := false, presented := 2, accepted := [], skips := 1 } "2.4"
    ["2412", "5180", ""] ["2412", "2437"] 4 (by decide) (by decide) (by decide)
    (by decide) (by decide)).2.1 (by decide)

/-! Duplicate option tokens resolve to the first occurrence (claim C10). -/

lemma indexOf_mem_spec (l : List String) (w : String) (h : w ∈ l) :
    l.get? (l.indexOf w) = some w ∧
    ∀ j, j < l.indexOf w → ¬ l.get? j = some w := by
  induction l with
  | nil => cases h
  | cons x xs ih =>
    by_cases hx : x = w
    · subst hx
      rw [List.indexOf_cons]
      simp
    · have hbeq : (x == w) = false := by
        simp [hx]
      have hmem : w ∈ xs := by
        rcases List.mem_cons.mp h with h1 | h2
        · exact absurd h1.symm hx
        · exact h2
      obtain ⟨ih1, ih2⟩ := ih hmem
      rw [List.indexOf_cons, hbeq]
      simp only [Bool.cond_false]
      constructor
      · simpa using ih1
      · intro j hj
        cases j with
        | zero =>
          simp only [List.get?_cons_zero]
          intro hc
          exact hx (Option.some.inj hc)
        | succ j =>
          rw [List.get?_cons_succ]
          exact ih2 j (by omega)

/-- C10: subsection lookup resolves the clicked token text `w` through
`list.index`, i.e. to the FIRST position of `w` in the displayed section's
row; since a button click only carries the text, the sub-options presented
are always those scanned from the first matching original row, regardless
of which duplicate button was clicked. -/
theorem c10_duplicate_first_occurrence :
    (∀ (l : List String) (w : String), w ∈ l →
        l.get? (l.indexOf w) = some w ∧
        ∀ j, j < l.indexOf w → ¬ l.get? j = some w) ∧
    (∀ (og td : List (List String)) (s : VState) (w : String)
        (rest2 vals : List String) (j2 : Nat),
        s.cri < td.length →
        td.getD s.cri [] = "" :: rest2 →
        w ∈ td.getD (s.cri - 1) [] →
        (td.getD (s.cri - 1) []).indexOf w < og.length →
        collectSub og
            ((og.getD ((td.getD (s.cri - 1) []).indexOf w) []).drop s.cri) s.cri
          = some (vals, j2) →
        ¬ vals = [] →
        ∃ p, (td.getD (s.cri - 1) []).get? p = some w ∧
          (∀ j, j < p → ¬ (td.getD (s.cri - 1) []).get? j = some w) ∧
          collectSub og ((og.getD p []).drop s.cri) s.cri = some (vals, j2) ∧
          insert_word og td s w
            = some { s with
                     cri := j2,
                     label := w ++ " values",
                     buttonWords := vals,
                     srcRow := none }) := by
  refine ⟨indexOf_mem_spec, ?_⟩
  intro og td s w rest2 vals j2 h1 h2 h3 h4 h5 hne
  obtain ⟨hp1, hp2⟩ := indexOf_mem_spec (td.getD (s.cri - 1) []) w h3
  refine ⟨(td.getD (s.cri - 1) []).indexOf w, hp1, hp2, h5, ?_⟩
  rw [insert_word_expand og td s w rest2 vals j2 h1 h2 h3 h4 h5]
  rw [if_neg (by simpa using hne)]
  rfl

/-- Witness for C10 on a table whose `F` column holds the duplicate token
`"x"` twice (rows with sub-values `a` and `b` respectively): clicking `"x"`
presents the sub-values of the FIRST `x` row, `["a"]`, not `["b"]`. -/
theorem c10_witness :
    ∃ p, ((zipTranspose [["F", ""], ["x", "a"], ["x", "b"]]).getD 0 []).get? p
          = some "x" ∧
      (∀ j, j < p →
        ¬ ((zipTranspose [["F", ""], ["x", "a"], ["x", "b"]]).getD 0 []).get? j
            = some "x") ∧
      collectSub [["F", ""], ["x", "a"], ["x", "b"]]
          (([["F", ""], ["x", "a"], ["x", "b"]].getD p []).drop 1) 1
        = some (["a"], 2) ∧
      insert_word [["F", ""], ["x", "a"], ["x", "b"]]
          (zipTranspose [["F", ""], ["x", "a"], ["x", "b"]])
          (vinit (zipTranspose [["F", ""], ["x", "a"], ["x", "b"]]) "S") "x"
        = some { cri := 2, title := "S", label := "x values",
                 buttonWords := ["a"], srcRow := none, alt := true,
                 done := false, presented := 1, accepted := [], skips := 0 } :=
  c10_duplicate_first_occurrence.2 [["F", ""], ["x", "a"], ["x", "b"]]
    (zipTranspose [["F", ""], ["x", "a"], ["x", "b"]])
    (vinit (zipTranspose [["F", ""], ["x", "a"], ["x", "b"]]) "S") "x"
    ["a", "b"] ["a"] 2 (by decide) (by decide) (by decide) (by decide)
    (by decide) (by decide)

end FswNamer
